import Mathlib

/-!
Shallow embedding of `selection/covtest.py`.

Conventions:
* A design matrix `X` is represented by its list of columns (each a `List ℚ`
  of length `n`); this matches the code, which only ever accesses `X` through
  `X.T` (rows of the transpose, i.e. columns) and `X[:, idx]`.
* `np.argsort(np.fabs(Z))[-1]` is embedded as the greatest index attaining the
  maximum of `|Z|`; for small arrays numpy's introsort falls back to a stable
  insertion sort, for which `argsort(..)[-1]` is exactly the last maximizer.
  Tie behaviour on larger arrays is implementation defined in numpy; the
  claims that depend on ties are settled in a way robust to this choice.
* External collaborators (`affine.constraints`, `affine.gibbs_test`,
  `affine.simulate_from_constraints`, `forward_step.forward_stepwise`,
  `con.pivot`, `con.bounds`) are not part of the analysed sources; they are
  modelled from the specification, either as explicit definitions or as
  universally quantified oracle parameters.
* A Python `TypeError` (e.g. `None ** 2`) is modelled as `Except.error ()`.
-/

abbrev Vec := List ℚ

abbrev Mat := List Vec

/-- Dot product of two rational vectors (`np.dot` on 1-d arrays). -/
def dot (a b : Vec) : ℚ :=
  (List.zipWith (fun x y => x * y) a b).sum

/-- Elementwise difference (`a - b` on arrays of equal shape). -/
def subV (a b : Vec) : Vec :=
  List.zipWith (fun x y => x - y) a b

/-- Elementwise negation (`-a`). -/
def negV (a : Vec) : Vec :=
  a.map (fun x => -x)

/-- Scalar multiple of a vector (`s * a`). -/
def smulV (s : ℚ) (a : Vec) : Vec :=
  a.map (fun x => s * x)

/-- Scalar multiple of a matrix, entrywise (`s * M`, also `M *= s`). -/
def smulMat (s : ℚ) (M : Mat) : Mat :=
  M.map (fun r => smulV s r)

/-- Entrywise difference of two matrices of equal shape. -/
def matSub (A B : Mat) : Mat :=
  List.zipWith (fun r t => subV r t) A B

/-- `np.identity n`. -/
def idMat (n : ℕ) : Mat :=
  (List.range n).map (fun i => (List.range n).map (fun j => if i = j then (1 : ℚ) else 0))

/-- `np.dot (U, U.T)` for `U` given as a list of columns of length `n`. -/
def outerSum (U : Mat) (n : ℕ) : Mat :=
  (List.range n).map (fun i => (List.range n).map (fun j => (U.map (fun c => c.getD i 0 * c.getD j 0)).sum))

/-- `np.dot (M, v)` for `M` given as a list of rows. -/
def matVec (M : Mat) (v : Vec) : Vec :=
  M.map (fun r => dot r v)

/-- `np.sign` on rationals. -/
def qsign (q : ℚ) : ℚ :=
  if 0 < q then 1 else if q < 0 then -1 else 0

/-- Index of the last occurrence of the maximum of a list
(`np.argsort(l)[-1]` with a stable sort); `0` on the empty list. -/
def argmaxLast : List ℚ → ℕ
  | [] => 0
  | [_] => 0
  | a :: b :: l =>
      if a ≤ (b :: l).getD (argmaxLast (b :: l)) 0 then argmaxLast (b :: l) + 1 else 0

/-- `Z = np.dot(X.T, Y)`: the vector of column–response correlations. -/
def XtY (X : Mat) (Y : Vec) : Vec :=
  X.map (fun c => dot c Y)

/-- `idx = np.argsort(np.fabs(Z))[-1]` (line 74 of `covtest.py`). -/
def selectedIdx (X : Mat) (Y : Vec) : ℕ :=
  argmaxLast ((XtY X Y).map (fun q => |q|))

/-- `sign = np.sign(Z[idx])` (line 75 of `covtest.py`). -/
def selectedSign (X : Mat) (Y : Vec) : ℚ :=
  qsign ((XtY X Y).getD (selectedIdx X Y) 0)

/-- `X.T[subset]` where `subset` is the boolean mask keeping every column
`j ≠ i`: the columns of `X` other than `i`, in increasing index order. -/
def otherCols (X : Mat) (i : ℕ) : Mat :=
  ((List.range X.length).filter (fun j => j != i)).map (fun j => X.getD j [])

/-- Lines 77–81 of `covtest.py`:
`selector = np.vstack([X.T[subset], -X.T[subset], -sign*X[:,idx]])` followed by
`selector -= (sign * X[:,idx])[None,:]`. -/
def covtest_selector (X : Mat) (Y : Vec) : Mat :=
  (otherCols X (selectedIdx X Y)
      ++ (otherCols X (selectedIdx X Y)).map negV
      ++ [negV (smulV (selectedSign X Y) (X.getD (selectedIdx X Y) []))]).map
    (fun r => subV r (smulV (selectedSign X Y) (X.getD (selectedIdx X Y) [])))

/-- The polyhedral constraint record `{z : A z ≤ b}` with a covariance matrix,
mirroring the attributes of the external `affine.constraints` object. -/
structure Constraints where
  linear_part : Mat
  offset : Vec
  covariance : Mat
deriving DecidableEq, Repr

/-- Modelled from the spec: the external `affine.constraints` constructor
`construct(A, b, covariance?)` (§6); when no covariance is supplied it
defaults to the identity on the ambient dimension (§4.1). -/
def constraintsMk (A : Mat) (b : Vec) (cov : Option Mat) : Constraints :=
  { linear_part := A, offset := b, covariance := cov.getD (idMat (A.headD []).length) }

/-- Lines 77–85 of `covtest.py`: the constraint built by `covtest`, with
`con.covariance *= sigma**2` applied. -/
def covtestCon (X : Mat) (Y : Vec) (σ : ℚ) (cov : Option Mat) : Constraints :=
  { constraintsMk (covtest_selector X Y)
      (List.replicate (covtest_selector X Y).length 0) cov with
    covariance :=
      smulMat (σ ^ 2)
        (constraintsMk (covtest_selector X Y)
          (List.replicate (covtest_selector X Y).length 0) cov).covariance }

/-- Line 90 of `covtest.py`: `np.exp(-L1 * (L1-L2) / S**2)` from the tuple
`(L2, L1, upper, S)` returned by the external bounds primitive; the upper
limit is deliberately unused. -/
noncomputable def approxPval : ℚ × ℚ × ℚ × ℚ → ℝ
  | (L2, L1, _, S) => Real.exp (-(L1 : ℝ) * ((L1 : ℝ) - (L2 : ℝ)) / (S : ℝ) ^ 2)

/-- `covtest(X, Y, sigma, exact, covariance)`, lines 71–91 of `covtest.py`.
The external `con.pivot` and `con.bounds` primitives are oracle parameters.
`sigma = none` models Python `sigma=None`, for which `sigma ** 2` raises a
`TypeError` (modelled as `Except.error ()`). -/
noncomputable def covtest (piv : Constraints → Vec → Vec → ℝ)
    (bnds : Constraints → Vec → Vec → ℚ × ℚ × ℚ × ℚ)
    (X : Mat) (Y : Vec) (sigma : Option ℚ) (exct : Bool) (cov : Option Mat) :
    Except Unit (Constraints × ℝ × ℕ × ℚ) :=
  match sigma with
  | none => Except.error ()
  | some σ =>
      Except.ok (covtestCon X Y σ cov,
        (if exct then
          piv (covtestCon X Y σ cov)
            (smulV (selectedSign X Y) (X.getD (selectedIdx X Y) [])) Y
        else
          approxPval (bnds (covtestCon X Y σ cov)
            (smulV (selectedSign X Y) (X.getD (selectedIdx X Y) [])) Y)),
        selectedIdx X Y, selectedSign X Y)

/-- Python `sigma or 1` on an optional float: `None` and `0` are falsy. -/
def sigmaOr1 : Option ℚ → ℚ
  | none => 1
  | some x => if x = 0 then 1 else x

/-- `reduced_covtest(X, Y, ndraw, burnin, sigma, covariance)`, lines 147–176
of `covtest.py`. The external `affine.gibbs_test` sampler is an oracle
parameter receiving `(cone, Y, X[:,idx]*sign, ndraw, burnin, sigma_known)`. -/
noncomputable def reduced_covtest (piv : Constraints → Vec → Vec → ℝ)
    (bnds : Constraints → Vec → Vec → ℚ × ℚ × ℚ × ℚ)
    (gibbs : Constraints → Vec → Vec → ℤ → ℤ → Bool → ℝ)
    (X : Mat) (Y : Vec) (ndraw burnin : ℤ) (sigma : Option ℚ) (cov : Option Mat) :
    Except Unit (Constraints × ℝ × ℕ × ℚ) :=
  match covtest piv bnds X Y (some (sigmaOr1 sigma)) true cov with
  | Except.error e => Except.error e
  | Except.ok (cone, _, idx, s) =>
      Except.ok (cone,
        gibbs cone Y (smulV s (X.getD idx [])) ndraw burnin sigma.isSome,
        idx, s)

/-- Membership in the polyhedral region `{z : A z ≤ 0}` of the constraint
built by `covtest` (all offsets are zero). -/
def inRegion (X : Mat) (Y : Vec) (z : Vec) : Prop :=
  ∀ r ∈ covtest_selector X Y, dot r z ≤ 0

instance (X : Mat) (Y : Vec) (z : Vec) : Decidable (inRegion X Y z) :=
  inferInstanceAs (Decidable (∀ r ∈ covtest_selector X Y, dot r z ≤ 0))

/-- Reindexing of the columns of `X` by a permutation: column `j` of the
result is column `π j` of `X`. -/
def permCols {m : ℕ} (π : Equiv.Perm (Fin m)) (X : Mat) : Mat :=
  List.ofFn (fun j : Fin m => X.getD (π j) [])

/-- Column mean, `c.mean()`. -/
def colMean (c : Vec) : ℚ :=
  c.sum / c.length

/-- `c - c.mean()`. -/
def centerCol (c : Vec) : Vec :=
  c.map (fun t => t - colMean c)

/-- Population variance of a column: the square of `np.std(c)` (`ddof = 0`). -/
def colVar (c : Vec) : ℚ :=
  (c.map (fun t => (t - colMean c) ^ 2)).sum / c.length

/-- One column of `RX -= RX.mean(0)[None,:]; RX /= RX.std(0)[None,:]`:
center first, then divide by the standard deviation of the centered column.
`rsqrt` is the (external, floating-point) square-root routine. -/
def stdizeCol (rsqrt : ℚ → ℚ) (c : Vec) : Vec :=
  (centerCol c).map (fun t => t / rsqrt (colVar (centerCol c)))

/-- Lines 236–237 of `covtest.py`: in-place column standardization of `RX`. -/
def standardize (rsqrt : ℚ → ℚ) (M : Mat) : Mat :=
  M.map (fun c => stdizeCol rsqrt c)

/-- Line 261 of `covtest.py`:
`(np.dot(Z, eta) >= observed).mean()` over the list of sampled vectors. -/
def indicatorMean (samples : Mat) (eta : Vec) (observed : ℚ) : ℚ :=
  ((samples.map (fun z => if observed ≤ dot z eta then (1 : ℚ) else 0)).sum)
    / samples.length

/-- The per-step projection object `FS.P[i]` of the external stepwise
selector: applicable to a matrix or a vector, with an orthonormal basis `U`
(stored as a list of columns). Modelled from the spec (§6). -/
structure Proj where
  apM : Mat → Mat
  apV : Vec → Vec
  U : Mat

/-- Modelled from the spec: the external collaborators of `forward_step`
(§6) — the stepwise selector `forward_stepwise` (exposing, at iteration `i`
after `i+1` calls of `FS.next()`, the projection `FS.P[i]`, the accumulated
constraint matrix `FS.A` and the previous basis `FS.P[-2].U.T`), the
`conditional` method of a constraint, the sampler
`simulate_from_constraints`, the `pivot`/`bounds` primitives used inside
`covtest`, and the floating-point square root used by `np.std`. -/
structure FSO where
  projAt : ℕ → Option Proj
  Amat : ℕ → Mat
  prevUT : ℕ → Mat
  conditional : Constraints → Mat → Vec → Constraints
  simulate : Constraints → Vec → ℤ → ℤ → Mat
  piv : Constraints → Vec → Vec → ℝ
  bnds : Constraints → Vec → Vec → ℚ × ℚ × ℚ × ℚ
  rsqrt : ℚ → ℚ

/-- Lines 228–235 of `covtest.py`: the residualized design before
standardization. When `FS.P[i]` is `None`, `RX = X` — the very array the
caller passed in. -/
def RX0of (o : FSO) (i : ℕ) (X : Mat) : Mat :=
  match o.projAt i with
  | some P => matSub X (P.apM X)
  | none => X

/-- The residualized design after the in-place standardization of lines
236–237. -/
def RXof (o : FSO) (i : ℕ) (X : Mat) : Mat :=
  standardize o.rsqrt (RX0of o i X)

/-- `RY` of lines 230/234: `Y - FS.P[i](Y)`, or `Y` itself when there is no
projection yet. -/
def RYof (o : FSO) (i : ℕ) (Y : Vec) : Vec :=
  match o.projAt i with
  | some P => subV Y (P.apV Y)
  | none => Y

/-- The `covariance` argument of lines 231/235:
`np.identity(n) - np.dot(FS.P[i].U, FS.P[i].U.T)`, or `None`. -/
def covOf (o : FSO) (i : ℕ) (n : ℕ) : Option Mat :=
  match o.projAt i with
  | some P => some (matSub (idMat n) (outerSum P.U n))
  | none => none

/-- The value of the caller's array `X` after iteration `i`. When `FS.P[i]`
is `None`, `RX` aliases `X`, so the in-place `-=` and `/=` of lines 236–237
mutate `X` into its standardized form; otherwise `RX = X - FS.P[i](X)` is a
fresh array and `X` is untouched. -/
def XnewOf (o : FSO) (i : ℕ) (X : Mat) : Mat :=
  match o.projAt i with
  | some _ => X
  | none => RXof o i X

/-- One iteration of the `for i in range(nstep)` loop of `forward_step`
(lines 224–262 of `covtest.py`), acting on the current value of the caller's
array `X` and returning its new value together with the two appended
p-values. The second `Except.error ()` models the `TypeError` of
`Acon.covariance *= sigma**2` at line 254 (unreachable: `covtest` raises
first, at line 85). -/
noncomputable def fstep (o : FSO) (n : ℕ) (Y : Vec) (sigma : Option ℚ)
    (exct : Bool) (burnin ndraw : ℤ) (i : ℕ) (X : Mat) :
    Except Unit (Mat × ℝ × ℚ) :=
  match covtest o.piv o.bnds (RXof o i X) (RYof o i Y) sigma exct (covOf o i n) with
  | Except.error e => Except.error e
  | Except.ok (_, pval, idx, s) =>
      match sigma with
      | none => Except.error ()
      | some σ =>
          Except.ok (XnewOf o i X, pval,
            indicatorMean
              (o.simulate
                { (if 0 < i then
                    o.conditional
                      (constraintsMk (o.Amat i) (List.replicate (o.Amat i).length 0) none)
                      (o.prevUT i) (matVec (o.prevUT i) Y)
                  else
                    constraintsMk (o.Amat i) (List.replicate (o.Amat i).length 0) none) with
                  covariance :=
                    smulMat (σ ^ 2)
                      (if 0 < i then
                        o.conditional
                          (constraintsMk (o.Amat i) (List.replicate (o.Amat i).length 0) none)
                          (o.prevUT i) (matVec (o.prevUT i) Y)
                      else
                        constraintsMk (o.Amat i) (List.replicate (o.Amat i).length 0) none).covariance }
                Y ndraw burnin)
              (smulV s ((RXof o i X).getD idx []))
              (dot (smulV s ((RXof o i X).getD idx [])) Y))

/-- The loop of `forward_step`, threading the (mutable) state of the
caller's arrays `X` and `Y` and the two growing p-value lists. -/
noncomputable def fsLoop (o : FSO) (n : ℕ) (sigma : Option ℚ) (exct : Bool)
    (burnin ndraw : ℤ) :
    ℕ → ℕ → Mat → Vec → List ℝ → List ℚ →
      Except Unit (List ℝ × List ℚ × Mat × Vec)
  | 0, _, X, Y, cP, rP => Except.ok (cP, rP, X, Y)
  | k + 1, i, X, Y, cP, rP =>
      match fstep o n Y sigma exct burnin ndraw i X with
      | Except.error e => Except.error e
      | Except.ok (X', pval, rpval) =>
          fsLoop o n sigma exct burnin ndraw k (i + 1) X' Y
            (cP ++ [pval]) (rP ++ [rpval])

/-- `forward_step(X, Y, sigma, nstep, exact, burnin, ndraw)`, lines 218–264
of `covtest.py`. In addition to the two returned p-value lists, the final
values of the caller's arrays `X` and `Y` are made explicit, so that the
in-place effects of the loop are observable in the model. -/
noncomputable def forward_step (o : FSO) (X : Mat) (Y : Vec)
    (sigma : Option ℚ) (nstep : ℕ) (exct : Bool) (burnin ndraw : ℤ) :
    Except Unit (List ℝ × List ℚ × Mat × Vec) :=
  fsLoop o (X.headD []).length sigma exct burnin ndraw nstep 0 X Y [] []

/-- A trivial instantiation of the collaborator bundle, with no projection
at any step; used to evaluate the model at concrete inputs. -/
def oNone : FSO where
  projAt := fun _ => none
  Amat := fun _ => []
  prevUT := fun _ => []
  conditional := fun c _ _ => c
  simulate := fun _ _ _ _ => []
  piv := fun _ _ _ => 0
  bnds := fun _ _ _ => (0, 0, 0, 0)
  rsqrt := fun q => q

theorem dot_nil (b : Vec) : dot [] b = 0 := rfl

theorem dot_nil_right (a : Vec) : dot a [] = 0 := by
  cases a <;> rfl

theorem dot_smulV (s : ℚ) (a b : Vec) : dot (smulV s a) b = s * dot a b := by
  induction a generalizing b with
  | nil => simp [smulV, dot]
  | cons x a ih =>
      cases b with
      | nil => simp [smulV, dot]
      | cons y b =>
          simp only [smulV, List.map_cons, dot, List.zipWith_cons_cons, List.sum_cons] at *
          rw [ih]
          ring

theorem dot_negV (a b : Vec) : dot (negV a) b = -dot a b := by
  induction a generalizing b with
  | nil => simp [negV, dot]
  | cons x a ih =>
      cases b with
      | nil => simp [negV, dot]
      | cons y b =>
          simp only [negV, List.map_cons, dot, List.zipWith_cons_cons, List.sum_cons] at *
          rw [ih]
          ring

theorem dot_subV (a b z : Vec) (h : a.length = b.length) :
    dot (subV a b) z = dot a z - dot b z := by
  induction a generalizing b z with
  | nil =>
      cases b with
      | nil => simp [subV, dot]
      | cons y b => simp at h
  | cons x a ih =>
      cases b with
      | nil => simp at h
      | cons y b =>
          cases z with
          | nil => simp [subV, dot]
          | cons w z =>
              have h' : a.length = b.length := by simpa using h
              simp only [subV, List.zipWith_cons_cons, dot, List.sum_cons] at *
              rw [ih b z h']
              ring

theorem length_smulV (s : ℚ) (a : Vec) : (smulV s a).length = a.length := by
  simp [smulV]

theorem length_negV (a : Vec) : (negV a).length = a.length := by
  simp [negV]

theorem getD_map_abs (l : List ℚ) (j : ℕ) :
    (l.map (fun q => |q|)).getD j 0 = |l.getD j 0| := by
  induction l generalizing j with
  | nil => simp
  | cons a l ih =>
      cases j with
      | zero => simp
      | succ j => simpa using ih j

theorem XtY_length (X : Mat) (Y : Vec) : (XtY X Y).length = X.length := by
  simp [XtY]

theorem getD_XtY (X : Mat) (Y : Vec) (j : ℕ) :
    (XtY X Y).getD j 0 = dot (X.getD j []) Y := by
  induction X generalizing j with
  | nil => simp [XtY, dot]
  | cons c X ih =>
      cases j with
      | zero => simp [XtY]
      | succ j => simpa [XtY] using ih j

theorem getD_mem_of_lt {α : Type} (l : List α) (d : α) (j : ℕ) (h : j < l.length) :
    l.getD j d ∈ l := by
  induction l generalizing j with
  | nil => simp at h
  | cons a l ih =>
      cases j with
      | zero => simp
      | succ j =>
          simp only [List.getD_cons_succ]
          exact List.mem_cons_of_mem _ (ih j (by simpa using h))

theorem argmaxLast_lt (l : List ℚ) (h : l ≠ []) : argmaxLast l < l.length := by
  induction l with
  | nil => exact absurd rfl h
  | cons a t ih =>
      cases t with
      | nil => simp [argmaxLast]
      | cons b r =>
          have hbr : argmaxLast (b :: r) < (b :: r).length := ih (by simp)
          simp only [argmaxLast]
          split
          · simpa using Nat.succ_lt_succ hbr
          · simp

theorem getD_le_argmaxLast (l : List ℚ) (j : ℕ) (hj : j < l.length) :
    l.getD j 0 ≤ l.getD (argmaxLast l) 0 := by
  induction l generalizing j with
  | nil => simp at hj
  | cons a t ih =>
      cases t with
      | nil =>
          cases j with
          | zero => simp [argmaxLast]
          | succ j => simp at hj
      | cons b r =>
          simp only [argmaxLast]
          split
          · rename_i hle
            cases j with
            | zero => simpa using hle
            | succ j =>
                simp only [List.getD_cons_succ]
                exact ih j (by simpa using hj)
          · rename_i hgt
            push_neg at hgt
            cases j with
            | zero => simp
            | succ j =>
                simp only [List.getD_cons_succ, List.getD_cons_zero]
                exact le_of_lt (lt_of_le_of_lt (ih j (by simpa using hj)) hgt)

theorem argmaxLast_eq_of_strict (l : List ℚ) (i : ℕ) (hi : i < l.length)
    (hstr : ∀ j, j < l.length → j ≠ i → l.getD j 0 < l.getD i 0) :
    argmaxLast l = i := by
  by_contra hne
  have hne' : argmaxLast l ≠ i := hne
  have hlen : argmaxLast l < l.length :=
    argmaxLast_lt l (by intro h; subst h; simp at hi)
  have h1 : l.getD (argmaxLast l) 0 < l.getD i 0 := hstr _ hlen hne'
  have h2 : l.getD i 0 ≤ l.getD (argmaxLast l) 0 := getD_le_argmaxLast l i hi
  exact absurd (lt_of_le_of_lt h2 h1) (lt_irrefl _)

theorem qsign_mul_self (q : ℚ) : qsign q * q = |q| := by
  unfold qsign
  split
  · rename_i h
    rw [one_mul, abs_of_pos h]
  · split
    · rename_i h
      rw [abs_of_neg h]
      ring
    · rename_i h1 h2
      push_neg at h1 h2
      have : q = 0 := le_antisymm h1 h2
      subst this
      simp

theorem qsign_eq_zero_iff (q : ℚ) : qsign q = 0 ↔ q = 0 := by
  unfold qsign
  split
  · rename_i h
    constructor
    · intro h1; exact absurd h1 one_ne_zero
    · intro h1; subst h1; simp at h
  · split
    · rename_i h
      constructor
      · intro h1; norm_num at h1
      · intro h1; subst h1; simp at h
    · rename_i h1 h2
      push_neg at h1 h2
      simp [le_antisymm h1 h2]

theorem selectedIdx_lt (X : Mat) (Y : Vec) (hX : X ≠ []) :
    selectedIdx X Y < X.length := by
  have h : ((XtY X Y).map (fun q => |q|)).length = X.length := by
    simp [XtY]
  have hne : (XtY X Y).map (fun q => |q|) ≠ [] := by
    intro hc
    apply hX
    have := congrArg List.length hc
    simp only [h] at this
    exact List.length_eq_zero.mp this
  have := argmaxLast_lt _ hne
  rwa [h] at this

theorem abs_getD_le_selected (X : Mat) (Y : Vec) (j : ℕ) (hj : j < X.length) :
    |(XtY X Y).getD j 0| ≤ |(XtY X Y).getD (selectedIdx X Y) 0| := by
  have h1 := getD_le_argmaxLast ((XtY X Y).map (fun q => |q|)) j
    (by simpa [XtY] using hj)
  rwa [getD_map_abs, getD_map_abs] at h1

theorem selectedSign_mul (X : Mat) (Y : Vec) :
    selectedSign X Y * (XtY X Y).getD (selectedIdx X Y) 0 =
      |(XtY X Y).getD (selectedIdx X Y) 0| := by
  unfold selectedSign
  exact qsign_mul_self _

theorem mem_otherCols_iff (X : Mat) (i : ℕ) (r : Vec) :
    r ∈ otherCols X i ↔ ∃ j, j < X.length ∧ j ≠ i ∧ X.getD j [] = r := by
  simp only [otherCols, List.mem_map, List.mem_filter, List.mem_range, bne_iff_ne,
    ne_eq]
  constructor
  · rintro ⟨j, ⟨hj, hne⟩, hr⟩
    exact ⟨j, hj, hne, hr⟩
  · rintro ⟨j, hj, hne, hr⟩
    exact ⟨j, ⟨hj, hne⟩, hr⟩

theorem mem_selector_iff (X : Mat) (Y : Vec) (r : Vec) :
    r ∈ covtest_selector X Y ↔
      (∃ j, j < X.length ∧ j ≠ selectedIdx X Y ∧
        (r = subV (X.getD j [])
              (smulV (selectedSign X Y) (X.getD (selectedIdx X Y) [])) ∨
         r = subV (negV (X.getD j []))
              (smulV (selectedSign X Y) (X.getD (selectedIdx X Y) [])))) ∨
      r = subV (negV (smulV (selectedSign X Y) (X.getD (selectedIdx X Y) [])))
            (smulV (selectedSign X Y) (X.getD (selectedIdx X Y) [])) := by
  constructor
  · intro h
    simp only [covtest_selector, List.mem_map, List.mem_append,
      List.mem_singleton] at h
    obtain ⟨a, ha, rfl⟩ := h
    rcases ha with (ha | ha) | ha
    · rw [mem_otherCols_iff] at ha
      obtain ⟨j, hj, hne, rfl⟩ := ha
      exact Or.inl ⟨j, hj, hne, Or.inl rfl⟩
    · obtain ⟨b, hb, rfl⟩ := ha
      rw [mem_otherCols_iff] at hb
      obtain ⟨j, hj, hne, rfl⟩ := hb
      exact Or.inl ⟨j, hj, hne, Or.inr rfl⟩
    · subst ha
      exact Or.inr rfl
  · intro h
    simp only [covtest_selector, List.mem_map, List.mem_append,
      List.mem_singleton]
    rcases h with ⟨j, hj, hne, (rfl | rfl)⟩ | rfl
    · exact ⟨X.getD j [],
        Or.inl (Or.inl ((mem_otherCols_iff X _ _).mpr ⟨j, hj, hne, rfl⟩)), rfl⟩
    · refine ⟨negV (X.getD j []), Or.inl (Or.inr ?_), rfl⟩
      exact ⟨X.getD j [], (mem_otherCols_iff X _ _).mpr ⟨j, hj, hne, rfl⟩, rfl⟩
    · exact ⟨_, Or.inr rfl, rfl⟩

theorem region_iff (X : Mat) (Y : Vec) (z : Vec) (hX : X ≠ [])
    (hrect : ∀ col ∈ X, col.length = Y.length) :
    inRegion X Y z ↔
      ((∀ j, j < X.length → j ≠ selectedIdx X Y →
          |dot (X.getD j []) z| ≤
            selectedSign X Y * dot (X.getD (selectedIdx X Y) []) z) ∧
        0 ≤ selectedSign X Y * dot (X.getD (selectedIdx X Y) []) z) := by
  have hi : selectedIdx X Y < X.length := selectedIdx_lt X Y hX
  have hclen : (X.getD (selectedIdx X Y) []).length = Y.length :=
    hrect _ (getD_mem_of_lt _ _ _ hi)
  constructor
  · intro h
    constructor
    · intro j hj hne
      have h1 := h _ ((mem_selector_iff X Y _).mpr (Or.inl ⟨j, hj, hne, Or.inl rfl⟩))
      have h2 := h _ ((mem_selector_iff X Y _).mpr (Or.inl ⟨j, hj, hne, Or.inr rfl⟩))
      rw [dot_subV _ _ _
            (by rw [length_smulV, hclen]; exact hrect _ (getD_mem_of_lt _ _ _ hj)),
          dot_smulV] at h1
      rw [dot_subV _ _ _
            (by rw [length_negV, length_smulV, hclen]
                exact hrect _ (getD_mem_of_lt _ _ _ hj)),
          dot_smulV, dot_negV] at h2
      rw [abs_le]
      constructor
      · linarith
      · linarith
    · have h3 := h _ ((mem_selector_iff X Y _).mpr (Or.inr rfl))
      rw [dot_subV _ _ _ (by rw [length_negV]), dot_negV, dot_smulV] at h3
      linarith
  · rintro ⟨hb, hpos⟩
    intro r hr
    rcases (mem_selector_iff X Y r).mp hr with ⟨j, hj, hne, (rfl | rfl)⟩ | rfl
    · rw [dot_subV _ _ _
            (by rw [length_smulV, hclen]; exact hrect _ (getD_mem_of_lt _ _ _ hj)),
          dot_smulV]
      have := hb j hj hne
      rw [abs_le] at this
      linarith [this.2]
    · rw [dot_subV _ _ _
            (by rw [length_negV, length_smulV, hclen]
                exact hrect _ (getD_mem_of_lt _ _ _ hj)),
          dot_smulV, dot_negV]
      have := hb j hj hne
      rw [abs_le] at this
      linarith [this.1]
    · rw [dot_subV _ _ _ (by rw [length_negV]), dot_negV, dot_smulV]
      linarith

theorem select_mem_region (X : Mat) (Y z : Vec) (hX : X ≠ [])
    (hrect : ∀ col ∈ X, col.length = Y.length)
    (hidx : selectedIdx X z = selectedIdx X Y)
    (hsgn : selectedSign X z = selectedSign X Y) :
    inRegion X Y z := by
  rw [region_iff X Y z hX hrect, ← hidx, ← hsgn]
  constructor
  · intro j hj hne
    rw [← getD_XtY, ← getD_XtY, selectedSign_mul]
    exact abs_getD_le_selected X z j hj
  · rw [← getD_XtY, selectedSign_mul]
    exact abs_nonneg _

theorem qsign_cases (q : ℚ) : qsign q = 1 ∨ qsign q = -1 ∨ qsign q = 0 := by
  unfold qsign
  split
  · exact Or.inl rfl
  · split
    · exact Or.inr (Or.inl rfl)
    · exact Or.inr (Or.inr rfl)

theorem strict_mem_select (X : Mat) (Y z : Vec) (hX : X ≠ [])
    (hstr : ∀ j, j < X.length → j ≠ selectedIdx X Y →
      |dot (X.getD j []) z| <
        selectedSign X Y * dot (X.getD (selectedIdx X Y) []) z)
    (hpos : 0 < selectedSign X Y * dot (X.getD (selectedIdx X Y) []) z) :
    selectedIdx X z = selectedIdx X Y ∧ selectedSign X z = selectedSign X Y := by
  have hi : selectedIdx X Y < X.length := selectedIdx_lt X Y hX
  have hv : (XtY X z).getD (selectedIdx X Y) 0 =
      dot (X.getD (selectedIdx X Y) []) z := getD_XtY X z _
  have habs : |dot (X.getD (selectedIdx X Y) []) z| =
      selectedSign X Y * dot (X.getD (selectedIdx X Y) []) z := by
    rcases qsign_cases ((XtY X Y).getD (selectedIdx X Y) 0) with hs | hs | hs
    · unfold selectedSign at hpos ⊢
      rw [hs] at hpos ⊢
      rw [one_mul] at hpos ⊢
      exact abs_of_pos hpos
    · unfold selectedSign at hpos ⊢
      rw [hs] at hpos ⊢
      have : dot (X.getD (selectedIdx X Y) []) z < 0 := by linarith
      rw [abs_of_neg this]
      ring
    · unfold selectedSign at hpos
      rw [hs, zero_mul] at hpos
      exact absurd hpos (lt_irrefl 0)
  have hidx : selectedIdx X z = selectedIdx X Y := by
    refine argmaxLast_eq_of_strict ((XtY X z).map (fun q => |q|))
      (selectedIdx X Y) ?_ ?_
    · rw [List.length_map, XtY_length]
      exact hi
    · intro j hj hne
      rw [List.length_map, XtY_length] at hj
      rw [getD_map_abs, getD_map_abs, getD_XtY, getD_XtY, habs]
      exact hstr j hj hne
  refine ⟨hidx, ?_⟩
  have hsz : selectedSign X z = qsign (dot (X.getD (selectedIdx X Y) []) z) := by
    unfold selectedSign
    rw [hidx, hv]
  unfold selectedSign at hpos
  rcases qsign_cases ((XtY X Y).getD (selectedIdx X Y) 0) with hs | hs | hs
  · rw [hs, one_mul] at hpos
    rw [hsz]
    unfold selectedSign
    rw [hs]
    unfold qsign
    rw [if_pos hpos]
  · rw [hs] at hpos
    have hneg : dot (X.getD (selectedIdx X Y) []) z < 0 := by linarith
    rw [hsz]
    unfold selectedSign
    rw [hs]
    unfold qsign
    rw [if_neg (by linarith), if_pos hneg]
  · rw [hs, zero_mul] at hpos
    exact absurd hpos (lt_irrefl 0)

theorem length_permCols {m : ℕ} (π : Equiv.Perm (Fin m)) (X : Mat) :
    (permCols π X).length = m := by
  simp [permCols]

theorem getD_permCols {m : ℕ} (π : Equiv.Perm (Fin m)) (X : Mat) (j : Fin m) :
    (permCols π X).getD (j : ℕ) [] = X.getD ((π j : Fin m) : ℕ) [] := by
  unfold permCols
  rw [List.getD_eq_getElem _ _ (by simp [List.length_ofFn])]
  rw [List.getElem_ofFn]

/-- C1: the constraint built by `covtest` is `{z : A z ≤ 0}` where the rows
assert, for every column `j ≠ idx`, `X_j·z − sign·X_idx·z ≤ 0` and
`−X_j·z − sign·X_idx·z ≤ 0`, plus `−sign·X_idx·z ≤ 0` (stored doubled, the
same half-space), i.e. membership is equivalent to
`|X_j·z| ≤ sign·X_idx·z` for all `j ≠ idx` together with
`0 ≤ sign·X_idx·z` (part 1). This region CONTAINS every response vector `z`
that would again select `(idx, sign)` (part 2), and every `z` satisfying the
inequalities strictly again selects `(idx, sign)` (part 3); exact equality
with the selection event fails on the boundary — see the counterexample. -/
theorem C1_region_characterization (X : Mat) (Y : Vec) (hX : X ≠ [])
    (hrect : ∀ col ∈ X, col.length = Y.length) :
    (∀ z : Vec,
      inRegion X Y z ↔
        ((∀ j, j < X.length → j ≠ selectedIdx X Y →
            |dot (X.getD j []) z| ≤
              selectedSign X Y * dot (X.getD (selectedIdx X Y) []) z) ∧
          0 ≤ selectedSign X Y * dot (X.getD (selectedIdx X Y) []) z)) ∧
    (∀ z : Vec, selectedIdx X z = selectedIdx X Y →
      selectedSign X z = selectedSign X Y → inRegion X Y z) ∧
    (∀ z : Vec,
      (∀ j, j < X.length → j ≠ selectedIdx X Y →
        |dot (X.getD j []) z| <
          selectedSign X Y * dot (X.getD (selectedIdx X Y) []) z) →
      0 < selectedSign X Y * dot (X.getD (selectedIdx X Y) []) z →
      selectedIdx X z = selectedIdx X Y ∧ selectedSign X z = selectedSign X Y) :=
  ⟨fun z => region_iff X Y z hX hrect,
   fun z => select_mem_region X Y z hX hrect,
   fun z => strict_mem_select X Y z hX⟩

/-- C1 fails as literally stated: the region is the CLOSURE of the selection
event, not exactly the selection event. For `X = I₂`, `Y = (2,1)` covtest
selects `(idx, sign) = (0, +1)`; the zero response vector `z = 0` lies in
the region (`A·0 = 0 ≤ 0`) but running the selection on `z = 0` yields
`sign(X_0·z) = 0 ≠ +1`, so `(0, +1)` would not be selected again. -/
theorem C1_counterexample :
    selectedIdx [[1, 0], [0, 1]] [2, 1] = 0 ∧
    selectedSign [[1, 0], [0, 1]] [2, 1] = 1 ∧
    inRegion [[1, 0], [0, 1]] [2, 1] [0, 0] ∧
    ¬(selectedIdx [[1, 0], [0, 1]] [0, 0] = 0 ∧
      selectedSign [[1, 0], [0, 1]] [0, 0] = 1) := by
  with_unfolding_all decide

theorem C1_witness :
    (([[1, 0], [0, 1]] : Mat) ≠ [] ∧
      (∀ col ∈ ([[1, 0], [0, 1]] : Mat), col.length = ([2, 1] : Vec).length)) ∧
    ((∀ z : Vec,
      inRegion [[1, 0], [0, 1]] [2, 1] z ↔
        ((∀ j, j < ([[1, 0], [0, 1]] : Mat).length →
            j ≠ selectedIdx [[1, 0], [0, 1]] [2, 1] →
            |dot (([[1, 0], [0, 1]] : Mat).getD j []) z| ≤
              selectedSign [[1, 0], [0, 1]] [2, 1] *
                dot (([[1, 0], [0, 1]] : Mat).getD
                  (selectedIdx [[1, 0], [0, 1]] [2, 1]) []) z) ∧
          0 ≤ selectedSign [[1, 0], [0, 1]] [2, 1] *
              dot (([[1, 0], [0, 1]] : Mat).getD
                (selectedIdx [[1, 0], [0, 1]] [2, 1]) []) z)) ∧
    (∀ z : Vec, selectedIdx [[1, 0], [0, 1]] z = selectedIdx [[1, 0], [0, 1]] [2, 1] →
      selectedSign [[1, 0], [0, 1]] z = selectedSign [[1, 0], [0, 1]] [2, 1] →
      inRegion [[1, 0], [0, 1]] [2, 1] z) ∧
    (∀ z : Vec,
      (∀ j, j < ([[1, 0], [0, 1]] : Mat).length →
        j ≠ selectedIdx [[1, 0], [0, 1]] [2, 1] →
        |dot (([[1, 0], [0, 1]] : Mat).getD j []) z| <
          selectedSign [[1, 0], [0, 1]] [2, 1] *
            dot (([[1, 0], [0, 1]] : Mat).getD
              (selectedIdx [[1, 0], [0, 1]] [2, 1]) []) z) →
      0 < selectedSign [[1, 0], [0, 1]] [2, 1] *
          dot (([[1, 0], [0, 1]] : Mat).getD
            (selectedIdx [[1, 0], [0, 1]] [2, 1]) []) z →
      selectedIdx [[1, 0], [0, 1]] z = selectedIdx [[1, 0], [0, 1]] [2, 1] ∧
        selectedSign [[1, 0], [0, 1]] z = selectedSign [[1, 0], [0, 1]] [2, 1])) :=
  ⟨⟨by with_unfolding_all decide, by with_unfolding_all decide⟩,
   C1_region_characterization [[1, 0], [0, 1]] [2, 1] (by with_unfolding_all decide) (by with_unfolding_all decide)⟩

/-- C2: under the preconditions that the maximizing magnitude is unique and
the maximal correlation is nonzero, `covtest` returns `idx` equal to the
index of the column maximizing `|X_j · Y|` and `sign` equal to the sign of
`X_idx · Y` (which is then `±1`, not `0`). -/
theorem C2_selection_rule (X : Mat) (Y : Vec) (i : ℕ) (hi : i < X.length)
    (huniq : ∀ j, j < X.length → j ≠ i →
      |(XtY X Y).getD j 0| < |(XtY X Y).getD i 0|)
    (hnz : (XtY X Y).getD i 0 ≠ 0) :
    selectedIdx X Y = i ∧
      selectedSign X Y = qsign ((XtY X Y).getD i 0) ∧ selectedSign X Y ≠ 0 := by
  have hidx : selectedIdx X Y = i := by
    refine argmaxLast_eq_of_strict ((XtY X Y).map (fun q => |q|)) i ?_ ?_
    · rw [List.length_map, XtY_length]
      exact hi
    · intro j hj hne
      rw [List.length_map, XtY_length] at hj
      rw [getD_map_abs, getD_map_abs]
      exact huniq j hj hne
  refine ⟨hidx, ?_, ?_⟩
  · unfold selectedSign
    rw [hidx]
  · unfold selectedSign
    rw [hidx]
    intro hc
    exact hnz ((qsign_eq_zero_iff _).mp hc)

theorem C2_witness :
    (0 < ([[1, 0], [0, 1]] : Mat).length ∧
      (∀ j, j < ([[1, 0], [0, 1]] : Mat).length → j ≠ 0 →
        |(XtY [[1, 0], [0, 1]] [2, 1]).getD j 0| <
          |(XtY [[1, 0], [0, 1]] [2, 1]).getD 0 0|) ∧
      (XtY [[1, 0], [0, 1]] [2, 1]).getD 0 0 ≠ 0) ∧
    (selectedIdx [[1, 0], [0, 1]] [2, 1] = 0 ∧
      selectedSign [[1, 0], [0, 1]] [2, 1] =
        qsign ((XtY [[1, 0], [0, 1]] [2, 1]).getD 0 0) ∧
      selectedSign [[1, 0], [0, 1]] [2, 1] ≠ 0) :=
  ⟨⟨by with_unfolding_all decide, by with_unfolding_all decide, by with_unfolding_all decide⟩,
   C2_selection_rule [[1, 0], [0, 1]] [2, 1] 0 (by with_unfolding_all decide) (by with_unfolding_all decide) (by with_unfolding_all decide)⟩

/-- C3: the observed `Y` always lies inside the polyhedral region of the
constraint `covtest` builds from `(X, Y)`: every row `a` of the constructed
matrix `A` satisfies `a · Y ≤ 0`. -/
theorem C3_observed_in_region (X : Mat) (Y : Vec) (hX : X ≠ [])
    (hrect : ∀ col ∈ X, col.length = Y.length) :
    inRegion X Y Y :=
  select_mem_region X Y Y hX hrect rfl rfl

theorem C3_witness :
    (([[1, 2], [3, -1], [0, 1]] : Mat) ≠ [] ∧
      (∀ col ∈ ([[1, 2], [3, -1], [0, 1]] : Mat),
        col.length = ([1, -2] : Vec).length)) ∧
    inRegion [[1, 2], [3, -1], [0, 1]] [1, -2] [1, -2] :=
  ⟨⟨by with_unfolding_all decide, by with_unfolding_all decide⟩,
   C3_observed_in_region [[1, 2], [3, -1], [0, 1]] [1, -2] (by with_unfolding_all decide) (by with_unfolding_all decide)⟩

/-- C5: on the approximate path the returned p-value
`exp(−L1·(L1−L2)/S²)` lies in `[0, 1]` whenever the external bounds
primitive keeps its contract `L2 ≤ observed ≤ L1` (with nonzero scale `S`),
where `observed = sign·X_idx·Y` is the value `covtest` hands to it. This is
because `observed = |X_idx·Y| ≥ 0`, so `L1 ≥ 0` and `L1 − L2 ≥ 0`. -/
theorem C5_approx_pvalue_range (X : Mat) (Y : Vec) (L2 L1 u S : ℚ)
    (h2 : L2 ≤ selectedSign X Y * dot (X.getD (selectedIdx X Y) []) Y)
    (h1 : selectedSign X Y * dot (X.getD (selectedIdx X Y) []) Y ≤ L1)
    (hS : S ≠ 0) :
    0 ≤ approxPval (L2, L1, u, S) ∧ approxPval (L2, L1, u, S) ≤ 1 := by
  have hobs : 0 ≤ selectedSign X Y * dot (X.getD (selectedIdx X Y) []) Y := by
    rw [← getD_XtY, selectedSign_mul]
    exact abs_nonneg _
  constructor
  · exact le_of_lt (Real.exp_pos _)
  · show Real.exp (-(L1 : ℝ) * ((L1 : ℝ) - (L2 : ℝ)) / (S : ℝ) ^ 2) ≤ 1
    rw [Real.exp_le_one_iff]
    have hL1 : (0 : ℝ) ≤ (L1 : ℝ) := by exact_mod_cast le_trans hobs h1
    have hLL : (L2 : ℝ) ≤ (L1 : ℝ) := by exact_mod_cast le_trans h2 h1
    have hS' : (S : ℝ) ≠ 0 := by exact_mod_cast hS
    have hnum : -(L1 : ℝ) * ((L1 : ℝ) - (L2 : ℝ)) ≤ 0 := by nlinarith
    exact div_nonpos_iff.mpr (Or.inr ⟨hnum, sq_nonneg _⟩)

theorem C5_witness :
    ((0 : ℚ) ≤ selectedSign [[1]] [1] * dot (([[1]] : Mat).getD (selectedIdx [[1]] [1]) []) [1] ∧
      selectedSign [[1]] [1] * dot (([[1]] : Mat).getD (selectedIdx [[1]] [1]) []) [1] ≤ (2 : ℚ) ∧
      (1 : ℚ) ≠ 0) ∧
    (0 ≤ approxPval (0, 2, 5, 1) ∧ approxPval (0, 2, 5, 1) ≤ 1) :=
  ⟨⟨by with_unfolding_all decide, by with_unfolding_all decide, by with_unfolding_all decide⟩,
   C5_approx_pvalue_range [[1]] [1] 0 2 5 1 (by with_unfolding_all decide) (by with_unfolding_all decide) (by with_unfolding_all decide)⟩

/-- C8 as literally stated is false: with a tie in the maximal correlation
magnitude, the selected index is position-dependent, so permuting the other
columns can change it. Columns `(5,0,0), (0,5,0), (3,0,0)` with
`Y = (1,1,1)` give correlations `(5,5,3)` and select `idx = 1`; swapping
columns `0` and `2` (which fixes column `1`) gives correlations `(3,5,5)`
and selects `idx = 2 ≠ 1`. -/
theorem C8_counterexample :
    (Equiv.swap (0 : Fin 3) (2 : Fin 3)) 1 = 1 ∧
    selectedIdx [[5, 0, 0], [0, 5, 0], [3, 0, 0]] [1, 1, 1] = 1 ∧
    selectedIdx (permCols (Equiv.swap (0 : Fin 3) (2 : Fin 3))
        [[5, 0, 0], [0, 5, 0], [3, 0, 0]]) [1, 1, 1] ≠ 1 := by
  with_unfolding_all decide

/-- C8 amended: if the maximizing magnitude is unique (the tie-breaking
caveat already stated for C2), then `idx` and `sign` are invariant under any
permutation of the columns that fixes column `idx`. -/
theorem C8_perm_invariance (X : Mat) (Y : Vec) (hX : X ≠ [])
    (π : Equiv.Perm (Fin X.length))
    (hfix : ((π ⟨selectedIdx X Y, selectedIdx_lt X Y hX⟩ : Fin X.length) : ℕ) =
      selectedIdx X Y)
    (huniq : ∀ j, j < X.length → j ≠ selectedIdx X Y →
      |(XtY X Y).getD j 0| < |(XtY X Y).getD (selectedIdx X Y) 0|) :
    selectedIdx (permCols π X) Y = selectedIdx X Y ∧
      selectedSign (permCols π X) Y = selectedSign X Y := by
  have hi : selectedIdx X Y < X.length := selectedIdx_lt X Y hX
  have heqi : (XtY (permCols π X) Y).getD (selectedIdx X Y) 0 =
      (XtY X Y).getD (selectedIdx X Y) 0 := by
    rw [getD_XtY, getD_XtY,
      show (permCols π X).getD (selectedIdx X Y) [] =
        X.getD ((π ⟨selectedIdx X Y, hi⟩ : Fin X.length) : ℕ) [] from
        getD_permCols π X ⟨selectedIdx X Y, hi⟩,
      hfix]
  have hstr' : ∀ j, j < X.length → j ≠ selectedIdx X Y →
      |(XtY (permCols π X) Y).getD j 0| <
        |(XtY (permCols π X) Y).getD (selectedIdx X Y) 0| := by
    intro j hj hne
    have hj' : ((π ⟨j, hj⟩ : Fin X.length) : ℕ) ≠ selectedIdx X Y := by
      intro hc
      apply hne
      have h1 : π ⟨j, hj⟩ = ⟨selectedIdx X Y, hi⟩ := Fin.ext hc
      have h2 : π ⟨selectedIdx X Y, hi⟩ = ⟨selectedIdx X Y, hi⟩ := Fin.ext hfix
      have h3 := π.injective (h1.trans h2.symm)
      exact congrArg Fin.val h3
    rw [heqi]
    rw [getD_XtY,
      show (permCols π X).getD j [] =
        X.getD ((π ⟨j, hj⟩ : Fin X.length) : ℕ) [] from getD_permCols π X ⟨j, hj⟩,
      ← getD_XtY]
    exact huniq _ (Fin.isLt _) hj'
  have hidx : selectedIdx (permCols π X) Y = selectedIdx X Y := by
    refine argmaxLast_eq_of_strict ((XtY (permCols π X) Y).map (fun q => |q|))
      (selectedIdx X Y) ?_ ?_
    · rw [List.length_map, XtY_length, length_permCols]
      exact hi
    · intro j hj hne
      rw [List.length_map, XtY_length, length_permCols] at hj
      rw [getD_map_abs, getD_map_abs]
      exact hstr' j hj hne
  refine ⟨hidx, ?_⟩
  unfold selectedSign
  rw [hidx, heqi]

theorem C8_witness :
    (((Equiv.swap (0 : Fin 3) (2 : Fin 3))
        ⟨selectedIdx [[1, 0, 0], [0, 2, 0], [0, 0, 1]] [1, 1, 1],
          selectedIdx_lt [[1, 0, 0], [0, 2, 0], [0, 0, 1]] [1, 1, 1] (by with_unfolding_all decide)⟩ :
        ℕ) = selectedIdx [[1, 0, 0], [0, 2, 0], [0, 0, 1]] [1, 1, 1] ∧
      (∀ j, j < ([[1, 0, 0], [0, 2, 0], [0, 0, 1]] : Mat).length →
        j ≠ selectedIdx [[1, 0, 0], [0, 2, 0], [0, 0, 1]] [1, 1, 1] →
        |(XtY [[1, 0, 0], [0, 2, 0], [0, 0, 1]] [1, 1, 1]).getD j 0| <
          |(XtY [[1, 0, 0], [0, 2, 0], [0, 0, 1]] [1, 1, 1]).getD
            (selectedIdx [[1, 0, 0], [0, 2, 0], [0, 0, 1]] [1, 1, 1]) 0|)) ∧
    (selectedIdx (permCols (Equiv.swap (0 : Fin 3) (2 : Fin 3))
        [[1, 0, 0], [0, 2, 0], [0, 0, 1]]) [1, 1, 1] =
      selectedIdx [[1, 0, 0], [0, 2, 0], [0, 0, 1]] [1, 1, 1] ∧
      selectedSign (permCols (Equiv.swap (0 : Fin 3) (2 : Fin 3))
        [[1, 0, 0], [0, 2, 0], [0, 0, 1]]) [1, 1, 1] =
      selectedSign [[1, 0, 0], [0, 2, 0], [0, 0, 1]] [1, 1, 1]) :=
  ⟨⟨by with_unfolding_all decide, by with_unfolding_all decide⟩,
   C8_perm_invariance [[1, 0, 0], [0, 2, 0], [0, 0, 1]] [1, 1, 1] (by with_unfolding_all decide)
     (Equiv.swap (0 : Fin 3) (2 : Fin 3)) (by with_unfolding_all decide) (by with_unfolding_all decide)⟩

/-- C4: `reduced_covtest` returns exactly the constraint, `idx` and `sign`
of `covtest` on `(X, Y)` with `sigma` defaulted to `1` when unknown
(discarding covtest's p-value), and its p-value is the external Monte-Carlo
sampler evaluated on that same cone with direction `sign·X_idx` and the
sigma-known flag set iff `sigma` was supplied. The hypothesis excludes
`sigma = 0`, which the data model rules out (`sigma` is positive or
unknown). -/
theorem C4_reduced_reuses_covtest (piv : Constraints → Vec → Vec → ℝ)
    (bnds : Constraints → Vec → Vec → ℚ × ℚ × ℚ × ℚ)
    (gibbs : Constraints → Vec → Vec → ℤ → ℤ → Bool → ℝ)
    (X : Mat) (Y : Vec) (ndraw burnin : ℤ) (sigma : Option ℚ) (cov : Option Mat)
    (hσ : ∀ x, sigma = some x → x ≠ 0) :
    covtest piv bnds X Y (some (sigma.getD 1)) true cov =
      Except.ok (covtestCon X Y (sigma.getD 1) cov,
        piv (covtestCon X Y (sigma.getD 1) cov)
          (smulV (selectedSign X Y) (X.getD (selectedIdx X Y) [])) Y,
        selectedIdx X Y, selectedSign X Y) ∧
    reduced_covtest piv bnds gibbs X Y ndraw burnin sigma cov =
      Except.ok (covtestCon X Y (sigma.getD 1) cov,
        gibbs (covtestCon X Y (sigma.getD 1) cov) Y
          (smulV (selectedSign X Y) (X.getD (selectedIdx X Y) []))
          ndraw burnin sigma.isSome,
        selectedIdx X Y, selectedSign X Y) := by
  have hs1 : sigmaOr1 sigma = sigma.getD 1 := by
    cases sigma with
    | none => rfl
    | some x => simp [sigmaOr1, hσ x rfl]
  constructor
  · rfl
  · unfold reduced_covtest
    rw [hs1]
    rfl

theorem C4_witness :
    (∀ x : ℚ, (some (2 : ℚ)) = some x → x ≠ 0) ∧
    (covtest (fun _ _ _ => (0 : ℝ)) (fun _ _ _ => ((0 : ℚ), 0, 0, 0))
        [[1]] [1] (some ((some (2 : ℚ)).getD 1)) true none =
      Except.ok (covtestCon [[1]] [1] ((some (2 : ℚ)).getD 1) none,
        (fun _ _ _ => (0 : ℝ)) (covtestCon [[1]] [1] ((some (2 : ℚ)).getD 1) none)
          (smulV (selectedSign [[1]] [1]) (([[1]] : Mat).getD (selectedIdx [[1]] [1]) [])) [1],
        selectedIdx [[1]] [1], selectedSign [[1]] [1]) ∧
      reduced_covtest (fun _ _ _ => (0 : ℝ)) (fun _ _ _ => ((0 : ℚ), 0, 0, 0))
          (fun _ _ _ _ _ _ => (0 : ℝ)) [[1]] [1] 5000 2000 (some (2 : ℚ)) none =
        Except.ok (covtestCon [[1]] [1] ((some (2 : ℚ)).getD 1) none,
          (fun _ _ _ _ _ _ => (0 : ℝ)) (covtestCon [[1]] [1] ((some (2 : ℚ)).getD 1) none) [1]
            (smulV (selectedSign [[1]] [1]) (([[1]] : Mat).getD (selectedIdx [[1]] [1]) []))
            5000 2000 (some (2 : ℚ)).isSome,
          selectedIdx [[1]] [1], selectedSign [[1]] [1])) :=
  ⟨fun x h => by injection h with h; subst h; norm_num,
   C4_reduced_reuses_covtest (fun _ _ _ => (0 : ℝ)) (fun _ _ _ => ((0 : ℚ), 0, 0, 0))
     (fun _ _ _ _ _ _ => (0 : ℝ)) [[1]] [1] 5000 2000 (some (2 : ℚ)) none
     (fun x h => by injection h with h; subst h; norm_num)⟩

theorem XnewOf_none (o : FSO) (i : ℕ) (X : Mat) (hP : o.projAt i = none) :
    XnewOf o i X = standardize o.rsqrt X := by
  unfold XnewOf RXof RX0of
  rw [hP]

theorem fstep_some_ok (o : FSO) (n : ℕ) (Y : Vec) (σ : ℚ) (exct : Bool)
    (b nd : ℤ) (i : ℕ) (X : Mat) :
    ∃ pv rv, fstep o n Y (some σ) exct b nd i X =
      Except.ok (XnewOf o i X, pv, rv) :=
  ⟨_, _, rfl⟩

theorem fsLoop_some_ok (o : FSO) (n : ℕ) (σ : ℚ) (exct : Bool) (b nd : ℤ) :
    ∀ (k i : ℕ) (X : Mat) (Y : Vec) (cP : List ℝ) (rP : List ℚ),
      ∃ cP' rP' X', fsLoop o n (some σ) exct b nd k i X Y cP rP =
          Except.ok (cP', rP', X', Y) ∧
        cP'.length = cP.length + k ∧ rP'.length = rP.length + k := by
  intro k
  induction k with
  | zero =>
      intro i X Y cP rP
      exact ⟨cP, rP, X, rfl, by simp, by simp⟩
  | succ k ih =>
      intro i X Y cP rP
      obtain ⟨pv, rv, hst⟩ := fstep_some_ok o n Y σ exct b nd i X
      obtain ⟨cP', rP', X', hloop, hc, hr⟩ :=
        ih (i + 1) (XnewOf o i X) Y (cP ++ [pv]) (rP ++ [rv])
      refine ⟨cP', rP', X', ?_, ?_, ?_⟩
      · have hone : fsLoop o n (some σ) exct b nd (k + 1) i X Y cP rP =
            fsLoop o n (some σ) exct b nd k (i + 1) (XnewOf o i X) Y
              (cP ++ [pv]) (rP ++ [rv]) := by
          simp only [fsLoop]
          rw [hst]
        rw [hone]
        exact hloop
      · simp only [List.length_append, List.length_singleton] at hc
        omega
      · simp only [List.length_append, List.length_singleton] at hr
        omega

/-- C6: for a known noise scale, `forward_step` performs exactly `nstep`
iterations with no early stopping and returns two ordered p-value sequences
each of length exactly `nstep` (shown here for every `nstep`, in particular
every `nstep ≥ 1`); the final state of `Y` is also unchanged. -/
theorem C6_forward_step_lengths (o : FSO) (X : Mat) (Y : Vec) (σ : ℚ)
    (nstep : ℕ) (exct : Bool) (burnin ndraw : ℤ) :
    ∃ cP rP X', forward_step o X Y (some σ) nstep exct burnin ndraw =
        Except.ok (cP, rP, X', Y) ∧ cP.length = nstep ∧ rP.length = nstep := by
  obtain ⟨cP, rP, X', h, hc, hr⟩ :=
    fsLoop_some_ok o (X.headD []).length σ exct burnin ndraw nstep 0 X Y [] []
  exact ⟨cP, rP, X', h, by simpa using hc, by simpa using hr⟩

/-- C7 is a requirement the code does not implement: `reduced_covtest`
performs no validation of `ndraw`/`burnin` and, with the sampler modelled
from its spec contract as a total function, a call with `ndraw = 0` (and
default `burnin = 2000`) returns an ordinary result instead of failing fast
with a domain error. -/
theorem C7_no_domain_error_on_invalid_ndraw :
    reduced_covtest (fun _ _ _ => (37 : ℝ)) (fun _ _ _ => ((0 : ℚ), 0, 0, 0))
      (fun _ _ _ _ _ _ => (0 : ℝ)) [[1]] [1] 0 2000 none none =
      Except.ok
        ({ linear_part := [[-2]], offset := [0], covariance := [[1]] }, 0, 0, 1) := by
  show Except.ok ((covtestCon [[1]] [1] (sigmaOr1 none) none), (0 : ℝ), selectedIdx [[1]] [1],
      selectedSign [[1]] [1]) = _
  have h1 : covtestCon [[1]] [1] (sigmaOr1 none) none =
      { linear_part := [[-2]], offset := [0], covariance := [[1]] } := by
    with_unfolding_all decide
  have h2 : selectedIdx [[1]] [1] = 0 := by with_unfolding_all decide
  have h3 : selectedSign [[1]] [1] = 1 := by with_unfolding_all decide
  rw [h1, h2, h3]

/-- C9: at any step of `forward_step` whose projection entry is `None` (the
first step), the residualized design is the caller's array `X` itself and
the in-place column standardization leaves the caller's `X` equal to
`standardize X`; the caller's `Y` is never modified by any run. -/
theorem C9_first_step_aliasing (o : FSO) (n : ℕ) (X : Mat) (Y : Vec) (σ : ℚ)
    (exct : Bool) (b nd : ℤ) (i : ℕ) (hP : o.projAt i = none) :
    (∃ pv rv, fstep o n Y (some σ) exct b nd i X =
        Except.ok (standardize o.rsqrt X, pv, rv)) ∧
    ∀ (nstep : ℕ) (cP : List ℝ) (rP : List ℚ) (X' : Mat) (Y' : Vec),
      forward_step o X Y (some σ) nstep exct b nd =
          Except.ok (cP, rP, X', Y') → Y' = Y := by
  constructor
  · obtain ⟨pv, rv, h⟩ := fstep_some_ok o n Y σ exct b nd i X
    exact ⟨pv, rv, by rw [h, XnewOf_none o i X hP]⟩
  · intro nstep cP rP X' Y' h
    obtain ⟨cP2, rP2, X2, h2, _, _⟩ :=
      fsLoop_some_ok o (X.headD []).length σ exct b nd nstep 0 X Y [] []
    have h' : fsLoop o (X.headD []).length (some σ) exct b nd nstep 0 X Y [] [] =
        Except.ok (cP, rP, X', Y') := h
    rw [h2] at h'
    simp only [Except.ok.injEq, Prod.mk.injEq] at h'
    exact h'.2.2.2.symm

theorem C9_witness :
    oNone.projAt 0 = none ∧
    ((∃ pv rv, fstep oNone 1 [1] (some 1) false 0 0 0 [[1, 2]] =
        Except.ok (standardize oNone.rsqrt [[1, 2]], pv, rv)) ∧
      ∀ (nstep : ℕ) (cP : List ℝ) (rP : List ℚ) (X' : Mat) (Y' : Vec),
        forward_step oNone [[1, 2]] [1] (some 1) nstep false 0 0 =
            Except.ok (cP, rP, X', Y') → Y' = [1]) :=
  ⟨rfl, C9_first_step_aliasing oNone 1 [[1, 2]] [1] 1 false 0 0 0 rfl⟩

/-- C10: with `sigma = None` (its default), `forward_step` fails during the
first iteration — `covtest` raises a `TypeError` at the covariance scaling
`con.covariance *= sigma**2` — and returns no p-value sequences at all, for
every `nstep ≥ 1`. -/
theorem C10_sigma_none_fails (o : FSO) (X : Mat) (Y : Vec) (nstep : ℕ)
    (exct : Bool) (burnin ndraw : ℤ) (h : 1 ≤ nstep) :
    forward_step o X Y none nstep exct burnin ndraw = Except.error () := by
  obtain ⟨k, rfl⟩ : ∃ k, nstep = k + 1 := ⟨nstep - 1, by omega⟩
  show fsLoop o (X.headD []).length none exct burnin ndraw (k + 1) 0 X Y [] [] =
    Except.error ()
  have hf : fstep o (X.headD []).length Y none exct burnin ndraw 0 X =
      Except.error () := rfl
  simp only [fsLoop]
  rw [hf]

theorem C10_witness :
    1 ≤ 1 ∧
    forward_step oNone [[1]] [1] none 1 false 1000 5000 = Except.error () :=
  ⟨le_refl 1, C10_sigma_none_fails oNone [[1]] [1] 1 false 1000 5000 (le_refl 1)⟩
